import Mathlib

/-!
Verification of the spatial-graph core of the DS210 rental-listing project.

The embedding models the two Rust modules that carry the algorithmic content:

* `src/src/graph_analysis.rs` (production variant): `construct_graph` with the
  inclusive 10 km threshold, `bfs_total_distance`, and `analyze_centrality`
  with prefix sampling, reciprocal scoring and a stable descending sort.
* `src/graph_analysis.rs` (alternate variant): `construct_graph` with the
  strict 50 km threshold (its node construction is identical).

Floating-point (`f64`) values are modelled as rationals `ℚ` for the graph and
traversal code, whose claims are structural and hold for every distance
function; the transcendental haversine formula itself is modelled over `ℝ`
with `Real.sin`, `Real.cos` and an explicit `atan2`, matching the Rust
formula term by term.

The Rust code builds a `petgraph::graph::Graph<(f64, f64), f64>`, which is a
DIRECTED graph (petgraph's default direction): `construct_graph` only inserts
edges from the lower index `i` to the higher index `j`, and `graph.edges(v)`
iterates the OUTGOING edges of `v`, most recently inserted first.  The
embedding reproduces exactly that.
-/

namespace GA

/-- One input record, as in the `Property` struct of `src/src/main.rs`:
latitude and longitude are optional; other fields are irrelevant to the
graph core except `rent_per_sqft`, kept for completeness. -/
structure Property where
  latitude : Option ℚ
  longitude : Option ℚ
  rent_per_sqft : Option ℚ
deriving DecidableEq, Repr

/-- A coordinate pair (latitude, longitude). -/
abbrev Coord : Type := ℚ × ℚ

/-- The petgraph `Graph<(f64, f64), f64>` value as observed by this core:
the node-weight table in index order, and the edge list as
(source, target, weight) triples in insertion order. -/
structure Graph where
  nodes : List Coord
  edges : List (ℕ × ℕ × ℚ)
deriving DecidableEq, Repr

/-- `graph.edges(v)` of petgraph on a directed graph: the outgoing edges of
`v` as (target, weight) pairs, iterated most-recently-inserted first. -/
def Graph.outEdges (g : Graph) (v : ℕ) : List (ℕ × ℚ) :=
  ((g.edges.filter (fun e => e.1 == v)).map (fun e => (e.2.1, e.2.2))).reverse

/-- The node-coordinate list built by the first loop of `construct_graph`:
records with both latitude and longitude present, in input order, unwrapped.
(After the filter both fields are `some`, so `getD 0` is exactly `unwrap`.) -/
def nodeCoords (data : List Property) : List Coord :=
  (data.filter (fun p => p.latitude.isSome && p.longitude.isSome)).map
    (fun p => (p.latitude.getD 0, p.longitude.getD 0))

/-- `construct_graph` of `src/src/graph_analysis.rs` (production variant),
parameterized by the distance function `dist` (the Rust code instantiates it
with `haversine_distance` on `f64`; abstracting it lets the structural claims
hold for every distance function).  For each pair `i < j` of node indices it
computes `d = dist nodes[i] nodes[j]` and inserts the edge `(i, j, d)` iff
`d ≤ 10`. -/
def construct_graph (dist : Coord → Coord → ℚ) (data : List Property) : Graph :=
  let nodes := nodeCoords data
  let edges := (List.range nodes.length).flatMap (fun i =>
    (List.range' (i + 1) (nodes.length - (i + 1))).filterMap (fun j =>
      let d := dist (nodes.getD i (0, 0)) (nodes.getD j (0, 0))
      if d ≤ 10 then some (i, j, d) else none))
  ⟨nodes, edges⟩

/-- `construct_graph` of `src/graph_analysis.rs` (alternate variant): node
construction identical to the production variant, edge inserted iff the
distance is strictly below 50. -/
def construct_graph_alt (dist : Coord → Coord → ℚ) (data : List Property) : Graph :=
  let nodes := nodeCoords data
  let edges := (List.range nodes.length).flatMap (fun i =>
    (List.range' (i + 1) (nodes.length - (i + 1))).filterMap (fun j =>
      let d := dist (nodes.getD i (0, 0)) (nodes.getD j (0, 0))
      if d < 50 then some (i, j, d) else none))
  ⟨nodes, edges⟩

/-- The loop of `bfs_total_distance`, with an explicit iteration budget
`fuel` (one unit per dequeued entry; `none` means the budget ran out, which
`bfs_fuel_sufficient` below shows never happens at the budget used by
`bfs_total_distance`).  State: the FIFO queue of (node, distance) pairs, the
visited set (the keys of the Rust `HashMap`), and the running total.
A dequeued node already visited is skipped; otherwise it is marked visited,
its queued distance is added to the total, and every not-yet-visited
out-neighbor is enqueued with distance `d + weight` (the Rust code inserts
the current node into `visited` before scanning its edges, hence the
membership test against `c :: visited`). -/
def bfsLoop (g : Graph) : ℕ → List (ℕ × ℚ) → List ℕ → ℚ → Option ℚ
  | _, [], _, total => some total
  | 0, _ :: _, _, _ => none
  | fuel + 1, (c, d) :: rest, visited, total =>
    if c ∈ visited then
      bfsLoop g fuel rest visited total
    else
      bfsLoop g fuel
        (rest ++ (g.outEdges c).filterMap (fun e =>
          if e.1 ∈ c :: visited then none else some (e.1, d + e.2)))
        (c :: visited) (total + d)

/-- `bfs_total_distance` of `src/src/graph_analysis.rs`: seeds the queue with
`(start, 0.0)` and runs the loop until the queue is exhausted.  The budget
`g.edges.length + 1` bounds the number of dequeues (proved in
`bfs_fuel_sufficient`), so the `getD 0` default is never taken. -/
def bfs_total_distance (g : Graph) (start : ℕ) : ℚ :=
  (bfsLoop g (g.edges.length + 1) [(start, 0)] [] 0).getD 0

/-- The comparator of `analyze_centrality`'s sort:
`|a, b| b.1.partial_cmp(&a.1).unwrap()` orders pairs by descending score;
under it `a` may stay before `b` iff `b.2 ≤ a.2`. -/
def scoreLe (a b : ℕ × ℚ) : Bool := decide (b.2 ≤ a.2)

/-- `analyze_centrality` of `src/src/graph_analysis.rs`: for each of the
first `sample_size` node indices (in index order), score
`1 / bfs_total_distance` when the total is positive and `0` otherwise, then
sort the (index, score) pairs by score descending with a stable sort
(Rust's `sort_by` is stable; `List.mergeSort` is its stable model). -/
def analyze_centrality (g : Graph) (sample_size : ℕ) : List (ℕ × ℚ) :=
  let scores := ((List.range g.nodes.length).take sample_size).map (fun v =>
    let td := bfs_total_distance g v
    (v, if 0 < td then 1 / td else 0))
  scores.mergeSort scoreLe

/-- Membership in the pair-loop edge list: an auxiliary characterization of
the `i < j` double loop with a threshold test, shared by both variants. -/
lemma mem_pairLoop_iff (n : ℕ) (dfun : ℕ → ℕ → ℚ) (P : ℚ → Prop) [DecidablePred P]
    (i j : ℕ) (w : ℚ) :
    ((i, j, w) ∈ (List.range n).flatMap (fun a =>
      (List.range' (a + 1) (n - (a + 1))).filterMap (fun b =>
        if P (dfun a b) then some (a, b, dfun a b) else none)))
    ↔ i < j ∧ j < n ∧ w = dfun i j ∧ P w := by
  simp only [List.mem_flatMap, List.mem_filterMap, List.mem_range, List.mem_range']
  constructor
  · rintro ⟨a, ha, b, ⟨k, hk, rfl⟩, hsome⟩
    split at hsome
    · obtain ⟨rfl, rfl, rfl⟩ := Prod.mk.injEq .. ▸ (Option.some.injEq .. ▸ hsome :)
      refine ⟨by omega, by omega, rfl, by assumption⟩
    · exact absurd hsome (by simp)
  · rintro ⟨hij, hjn, rfl, hP⟩
    refine ⟨i, by omega, j, ⟨j - (i + 1), by omega, by omega⟩, ?_⟩
    simp [hP]

/-- Edge membership in the production graph: `(i, j, w)` is an edge iff
`i < j < n`, `w` is the distance between nodes `i` and `j`, and `w ≤ 10`. -/
lemma mem_edges_construct_graph (dist : Coord → Coord → ℚ) (data : List Property)
    (i j : ℕ) (w : ℚ) :
    (i, j, w) ∈ (construct_graph dist data).edges ↔
      i < j ∧ j < (nodeCoords data).length ∧
      w = dist ((nodeCoords data).getD i (0, 0)) ((nodeCoords data).getD j (0, 0)) ∧
      w ≤ 10 :=
  mem_pairLoop_iff (nodeCoords data).length
    (fun a b => dist ((nodeCoords data).getD a (0, 0)) ((nodeCoords data).getD b (0, 0)))
    (fun d => d ≤ 10) i j w

/-- Edge membership in the alternate graph: as above with the strict 50 km
threshold. -/
lemma mem_edges_construct_graph_alt (dist : Coord → Coord → ℚ) (data : List Property)
    (i j : ℕ) (w : ℚ) :
    (i, j, w) ∈ (construct_graph_alt dist data).edges ↔
      i < j ∧ j < (nodeCoords data).length ∧
      w = dist ((nodeCoords data).getD i (0, 0)) ((nodeCoords data).getD j (0, 0)) ∧
      w < 50 :=
  mem_pairLoop_iff (nodeCoords data).length
    (fun a b => dist ((nodeCoords data).getD a (0, 0)) ((nodeCoords data).getD b (0, 0)))
    (fun d => d < 50) i j w

/-- C1.  In both variants of `construct_graph`, the edge set is exactly one
edge per unordered node pair `{i, j}` with `i < j` whose distance satisfies
the variant's threshold policy: the production variant has an edge iff
`distance ≤ 10` (inclusive), the alternate variant iff `distance < 50`
(strict); every edge's weight is the distance between its endpoints'
coordinates, no edge connects a node to itself, and at most one edge exists
per unordered pair (stated for an arbitrary distance function `dist`, which
the Rust code instantiates with `haversine_distance`). -/
theorem construct_graph_edge_policy (dist : Coord → Coord → ℚ) (data : List Property) :
    (∀ i j w, (i, j, w) ∈ (construct_graph dist data).edges ↔
      i < j ∧ j < (construct_graph dist data).nodes.length ∧
      w = dist ((construct_graph dist data).nodes.getD i (0, 0))
        ((construct_graph dist data).nodes.getD j (0, 0)) ∧ w ≤ 10) ∧
    (∀ i j w, (i, j, w) ∈ (construct_graph_alt dist data).edges ↔
      i < j ∧ j < (construct_graph_alt dist data).nodes.length ∧
      w = dist ((construct_graph_alt dist data).nodes.getD i (0, 0))
        ((construct_graph_alt dist data).nodes.getD j (0, 0)) ∧ w < 50) ∧
    (∀ i w, (i, i, w) ∉ (construct_graph dist data).edges ∧
      (i, i, w) ∉ (construct_graph_alt dist data).edges) ∧
    (∀ i j w w', (i, j, w) ∈ (construct_graph dist data).edges →
      (i, j, w') ∈ (construct_graph dist data).edges → w = w') ∧
    (∀ i j w w', (i, j, w) ∈ (construct_graph dist data).edges →
      (j, i, w') ∉ (construct_graph dist data).edges) ∧
    (∀ i j w w', (i, j, w) ∈ (construct_graph_alt dist data).edges →
      (i, j, w') ∈ (construct_graph_alt dist data).edges → w = w') ∧
    (∀ i j w w', (i, j, w) ∈ (construct_graph_alt dist data).edges →
      (j, i, w') ∉ (construct_graph_alt dist data).edges) := by
  refine ⟨mem_edges_construct_graph dist data,
    mem_edges_construct_graph_alt dist data, ?_, ?_, ?_, ?_, ?_⟩
  · intro i w
    constructor
    · intro h
      exact absurd ((mem_edges_construct_graph dist data i i w).mp h).1 (lt_irrefl i)
    · intro h
      exact absurd ((mem_edges_construct_graph_alt dist data i i w).mp h).1 (lt_irrefl i)
  · intro i j w w' h h'
    rw [(mem_edges_construct_graph dist data i j w).mp h |>.2.2.1,
      (mem_edges_construct_graph dist data i j w').mp h' |>.2.2.1]
  · intro i j w w' h h'
    have h1 := ((mem_edges_construct_graph dist data i j w).mp h).1
    have h2 := ((mem_edges_construct_graph dist data j i w').mp h').1
    omega
  · intro i j w w' h h'
    rw [(mem_edges_construct_graph_alt dist data i j w).mp h |>.2.2.1,
      (mem_edges_construct_graph_alt dist data i j w').mp h' |>.2.2.1]
  · intro i j w w' h h'
    have h1 := ((mem_edges_construct_graph_alt dist data i j w).mp h).1
    have h2 := ((mem_edges_construct_graph_alt dist data j i w').mp h').1
    omega

/-- C1 witness: at the constant distance function 3 and two complete
records, edge (0, 1, 3) is present in the production graph. -/
theorem construct_graph_edge_policy_witness :
    (0, 1, (3 : ℚ)) ∈ (construct_graph (fun _ _ => 3)
      [⟨some 1, some 2, none⟩, ⟨some 5, some 6, none⟩]).edges :=
  ((construct_graph_edge_policy (fun _ _ => 3)
    [⟨some 1, some 2, none⟩, ⟨some 5, some 6, none⟩]).1 0 1 3).mpr (by decide)

/-- C4.  In both variants, the node list is exactly the coordinate pairs of
the records having both latitude and longitude present, in input order (a
dense index space starting at 0); hence the node count equals the count of
records with both coordinates present. -/
theorem construct_graph_node_filter (dist : Coord → Coord → ℚ) (data : List Property) :
    (construct_graph dist data).nodes =
      (data.filter (fun p => p.latitude.isSome && p.longitude.isSome)).map
        (fun p => (p.latitude.getD 0, p.longitude.getD 0)) ∧
    (construct_graph dist data).nodes.length =
      data.countP (fun p => p.latitude.isSome && p.longitude.isSome) ∧
    (construct_graph_alt dist data).nodes =
      (data.filter (fun p => p.latitude.isSome && p.longitude.isSome)).map
        (fun p => (p.latitude.getD 0, p.longitude.getD 0)) ∧
    (construct_graph_alt dist data).nodes.length =
      data.countP (fun p => p.latitude.isSome && p.longitude.isSome) := by
  refine ⟨rfl, ?_, rfl, ?_⟩ <;>
    simp [construct_graph, construct_graph_alt, nodeCoords, List.countP_eq_length_filter]

/-- `outEdges` has as many entries as there are edges with source `c`. -/
lemma length_outEdges (g : Graph) (c : ℕ) :
    (g.outEdges c).length = (g.edges.filter (fun e => e.1 == c)).length := by
  simp [Graph.outEdges]

/-- Splitting the not-yet-explored edge count at a freshly visited node:
edges with source outside `visited` are those with source outside
`c :: visited` plus those with source `c` (for `c ∉ visited`). -/
lemma length_filter_unvisited_split (c : ℕ) (visited : List ℕ) (hc : c ∉ visited)
    (l : List (ℕ × ℕ × ℚ)) :
    (l.filter (fun e => decide (e.1 ∉ visited))).length =
      (l.filter (fun e => decide (e.1 ∉ c :: visited))).length +
      (l.filter (fun e => e.1 == c)).length := by
  induction l with
  | nil => simp
  | cons e t ih =>
    by_cases h1 : e.1 = c
    · have b1 : decide (e.1 ∉ visited) = true := by simp [h1, hc]
      have b2 : ¬(decide (e.1 ∉ c :: visited) = true) := by simp [h1]
      have b3 : (e.1 == c) = true := by simp [h1]
      rw [@List.filter_cons_of_pos _ (fun x => decide (x.1 ∉ visited)) e t b1,
        @List.filter_cons_of_neg _ (fun x => decide (x.1 ∉ c :: visited)) e t b2,
        @List.filter_cons_of_pos _ (fun x => x.1 == c) e t b3]
      simp only [List.length_cons]
      omega
    · by_cases h2 : e.1 ∈ visited
      · have b1 : ¬(decide (e.1 ∉ visited) = true) := by simp [h2]
        have b2 : ¬(decide (e.1 ∉ c :: visited) = true) := by
          simp [List.mem_cons, h2]
        have b3 : ¬((e.1 == c) = true) := by simp [h1]
        rw [@List.filter_cons_of_neg _ (fun x => decide (x.1 ∉ visited)) e t b1,
          @List.filter_cons_of_neg _ (fun x => decide (x.1 ∉ c :: visited)) e t b2,
          @List.filter_cons_of_neg _ (fun x => x.1 == c) e t b3]
        omega
      · have b1 : decide (e.1 ∉ visited) = true := by simp [h2]
        have b2 : decide (e.1 ∉ c :: visited) = true := by
          simp [List.mem_cons, h1, h2]
        have b3 : ¬((e.1 == c) = true) := by simp [h1]
        rw [@List.filter_cons_of_pos _ (fun x => decide (x.1 ∉ visited)) e t b1,
          @List.filter_cons_of_pos _ (fun x => decide (x.1 ∉ c :: visited)) e t b2,
          @List.filter_cons_of_neg _ (fun x => x.1 == c) e t b3]
        simp only [List.length_cons]
        omega

/-- The BFS loop exhausts its queue within a fuel budget of the queue length
plus the number of edges whose source has not yet been visited: each
iteration either discards a queue entry or visits a new node, whose
outgoing edges are then spent once and for all. -/
lemma bfsLoop_total (g : Graph) : ∀ (fuel : ℕ) (queue : List (ℕ × ℚ))
    (visited : List ℕ) (total : ℚ),
    queue.length + (g.edges.filter (fun e => decide (e.1 ∉ visited))).length ≤ fuel →
    (bfsLoop g fuel queue visited total).isSome = true := by
  intro fuel
  induction fuel with
  | zero =>
    intro queue visited total h
    match queue with
    | [] => simp [bfsLoop]
    | q :: rest => simp at h
  | succ f ih =>
    intro queue visited total h
    match queue with
    | [] => simp [bfsLoop]
    | (c, d) :: rest =>
      by_cases hc : c ∈ visited
      · simp only [bfsLoop, hc, if_true]
        apply ih
        simp only [List.length_cons] at h
        omega
      · simp only [bfsLoop, hc, if_false]
        apply ih
        have hsplit := length_filter_unvisited_split c visited hc g.edges
        have hnew : ((g.outEdges c).filterMap (fun e =>
            if e.1 ∈ c :: visited then none else some (e.1, d + e.2))).length ≤
            (g.edges.filter (fun e => e.1 == c)).length := by
          rw [← length_outEdges]
          exact List.length_filterMap_le _ _
        simp only [List.length_append, List.length_cons] at h ⊢
        omega

/-- Raising the fuel of an already-converged BFS loop run does not change
its result. -/
lemma bfsLoop_fuel_succ (g : Graph) : ∀ (f : ℕ) (queue : List (ℕ × ℚ))
    (visited : List ℕ) (total r : ℚ),
    bfsLoop g f queue visited total = some r →
    bfsLoop g (f + 1) queue visited total = some r := by
  intro f
  induction f with
  | zero =>
    intro queue visited total r h
    match queue with
    | [] => simpa [bfsLoop] using h
    | q :: rest => simp [bfsLoop] at h
  | succ f ih =>
    intro queue visited total r h
    match queue with
    | [] => simpa [bfsLoop] using h
    | (c, d) :: rest =>
      by_cases hc : c ∈ visited
      · simp only [bfsLoop, hc, if_true] at h ⊢
        exact ih _ _ _ _ h
      · simp only [bfsLoop, hc, if_false] at h ⊢
        exact ih _ _ _ _ h

/-- Raising the fuel by any amount preserves a converged result. -/
lemma bfsLoop_fuel_add (g : Graph) (f : ℕ) (queue : List (ℕ × ℚ))
    (visited : List ℕ) (total r : ℚ) (k : ℕ)
    (h : bfsLoop g f queue visited total = some r) :
    bfsLoop g (f + k) queue visited total = some r := by
  induction k with
  | zero => exact h
  | succ k ih => exact bfsLoop_fuel_succ g (f + k) _ _ _ _ ih

/-- C9.  `bfs_total_distance` terminates on every finite graph and start
node: the loop exhausts its queue within `|E| + 1` dequeues (the initial
entry plus at most one push per edge, since a node is enqueued only while
unvisited and each visited node's outgoing edges are scanned exactly once),
and any larger fuel budget yields the same converged result. -/
theorem bfs_fuel_sufficient (g : Graph) (start : ℕ) :
    (∃ r, bfsLoop g (g.edges.length + 1) [(start, 0)] [] 0 = some r ∧
      bfs_total_distance g start = r) ∧
    (∀ f, g.edges.length + 1 ≤ f →
      bfsLoop g f [(start, 0)] [] 0 = bfsLoop g (g.edges.length + 1) [(start, 0)] [] 0) := by
  have hΦ : (1 : ℕ) + (g.edges.filter (fun e => decide (e.1 ∉ ([] : List ℕ)))).length ≤
      g.edges.length + 1 := by
    have := List.length_filter_le (fun e => decide (e.1 ∉ ([] : List ℕ))) g.edges
    omega
  have hsome := bfsLoop_total g (g.edges.length + 1) [(start, 0)] [] 0 (by simpa using hΦ)
  obtain ⟨r, hr⟩ := Option.isSome_iff_exists.mp hsome
  refine ⟨⟨r, hr, ?_⟩, ?_⟩
  · simp [bfs_total_distance, hr]
  · intro f hf
    have : f = (g.edges.length + 1) + (f - (g.edges.length + 1)) := by omega
    rw [this, bfsLoop_fuel_add g _ _ _ _ r _ hr, hr]

/-- C9 witness: on the concrete two-edge graph below, fuel 4 and fuel 3
agree from start node 0. -/
theorem bfs_fuel_sufficient_witness :
    bfsLoop (⟨[(0, 0), (1, 1), (2, 2)], [(0, 1, 5), (1, 2, 7)]⟩ : Graph) 4 [(0, 0)] [] 0 =
      bfsLoop (⟨[(0, 0), (1, 1), (2, 2)], [(0, 1, 5), (1, 2, 7)]⟩ : Graph) 3 [(0, 0)] [] 0 :=
  (bfs_fuel_sufficient (⟨[(0, 0), (1, 1), (2, 2)], [(0, 1, 5), (1, 2, 7)]⟩ : Graph) 0).2 4
    (by decide)

/-- The three-node graph with the single edge chain A–B (weight 5) and
B–C (weight 7) used by the spec's concrete BFS scenario (and by the tests
in `src/src/main.rs`). -/
def chainGraph : Graph := ⟨[(0, 0), (1, 1), (2, 2)], [(0, 1, 5), (1, 2, 7)]⟩

/-- C2.  `bfs_total_distance` is the FIFO traversal of the spec: a dequeued
node already visited is skipped; an unvisited one is marked visited, its
queued distance joins the running total, and each not-yet-visited neighbor
is enqueued at distance `d + weight` (first-dequeued-wins); the traversal is
seeded with `(start, 0)`; on the chain A–B (5), B–C (7) the total from A is
exactly 17; and nodes unreachable from the start contribute nothing (from
node 0, a graph whose only edge is 1→2 yields total 0). -/
theorem bfs_traversal_spec :
    (∀ (g : Graph) (fuel c : ℕ) (d : ℚ) (rest : List (ℕ × ℚ))
      (visited : List ℕ) (total : ℚ), c ∈ visited →
      bfsLoop g (fuel + 1) ((c, d) :: rest) visited total =
        bfsLoop g fuel rest visited total) ∧
    (∀ (g : Graph) (fuel c : ℕ) (d : ℚ) (rest : List (ℕ × ℚ))
      (visited : List ℕ) (total : ℚ), c ∉ visited →
      bfsLoop g (fuel + 1) ((c, d) :: rest) visited total =
        bfsLoop g fuel
          (rest ++ (g.outEdges c).filterMap (fun e =>
            if e.1 ∈ c :: visited then none else some (e.1, d + e.2)))
          (c :: visited) (total + d)) ∧
    (∀ (g : Graph) (start : ℕ), bfs_total_distance g start =
      (bfsLoop g (g.edges.length + 1) [(start, 0)] [] 0).getD 0) ∧
    bfs_total_distance chainGraph 0 = 17 ∧
    bfs_total_distance (⟨[(0, 0), (1, 1), (2, 2)], [(1, 2, 5)]⟩ : Graph) 0 = 0 := by
  refine ⟨?_, ?_, fun g start => rfl, ?_, ?_⟩
  · intro g fuel c d rest visited total hc
    simp only [bfsLoop, if_pos hc]
  · intro g fuel c d rest visited total hc
    simp only [bfsLoop, if_neg hc]
  · norm_num [bfs_total_distance, bfsLoop, Graph.outEdges, chainGraph]
  · norm_num [bfs_total_distance, bfsLoop, Graph.outEdges]

/-- C2 witness: the skip step at a concrete already-visited queue head. -/
theorem bfs_traversal_spec_witness :
    bfsLoop chainGraph 1 [(0, 0)] [0] 0 = bfsLoop chainGraph 0 [] [0] 0 :=
  bfs_traversal_spec.1 chainGraph 0 0 0 [] [0] 0 (by decide)

/-- The unsorted (node, score) list built by `analyze_centrality`'s loop. -/
def scoreList (g : Graph) (sample_size : ℕ) : List (ℕ × ℚ) :=
  ((List.range g.nodes.length).take sample_size).map (fun v =>
    (v, if 0 < bfs_total_distance g v then 1 / bfs_total_distance g v else 0))

lemma analyze_centrality_eq (g : Graph) (k : ℕ) :
    analyze_centrality g k = (scoreList g k).mergeSort scoreLe := rfl

lemma scoreLe_trans : ∀ a b c : ℕ × ℚ,
    scoreLe a b = true → scoreLe b c = true → scoreLe a c = true := by
  intro a b c h1 h2
  simp only [scoreLe, decide_eq_true_eq] at h1 h2 ⊢
  exact le_trans h2 h1

lemma scoreLe_total : ∀ a b : ℕ × ℚ, (scoreLe a b || scoreLe b a) = true := by
  intro a b
  simp only [scoreLe, Bool.or_eq_true, decide_eq_true_eq]
  exact le_total b.2 a.2

/-- C6.  The sequence returned by `analyze_centrality` is sorted by score in
non-increasing order. -/
theorem analyze_centrality_sorted_desc (g : Graph) (k : ℕ) :
    (analyze_centrality g k).Pairwise (fun a b => b.2 ≤ a.2) := by
  rw [analyze_centrality_eq]
  exact (List.sorted_mergeSort scoreLe_trans scoreLe_total (scoreList g k)).imp
    (fun h => by simpa [scoreLe] using h)

/-- C5.  `analyze_centrality g k` analyzes exactly the first
`min k node_count` node indices (a deterministic prefix of the index space,
not a random sample): it returns `min k node_count` entries whose node
indices are a permutation of `(range node_count).take k`; on the zero-node
graph the result is always empty. -/
theorem analyze_centrality_sample_prefix (g : Graph) (k : ℕ) :
    (analyze_centrality g k).length = min k g.nodes.length ∧
    ((analyze_centrality g k).map Prod.fst).Perm
      ((List.range g.nodes.length).take k) ∧
    (∀ k', analyze_centrality (⟨[], []⟩ : Graph) k' = []) := by
  refine ⟨?_, ?_, ?_⟩
  · rw [analyze_centrality_eq]
    simp [scoreList]
  · rw [analyze_centrality_eq]
    have h1 := (List.mergeSort_perm (scoreList g k) scoreLe).map Prod.fst
    have hcomp : (Prod.fst ∘ fun v : ℕ =>
        (v, if 0 < bfs_total_distance g v then 1 / bfs_total_distance g v else 0)) = id := rfl
    have h2 : (scoreList g k).map Prod.fst = (List.range g.nodes.length).take k := by
      unfold scoreList
      rw [List.map_map, hcomp, List.map_id]
    rw [h2] at h1
    exact h1
  · intro k'
    simp [analyze_centrality_eq, scoreList]

/-- A node with no outgoing edges accumulates total distance 0. -/
lemma bfs_total_distance_isolated (g : Graph) (v : ℕ) (h : g.outEdges v = []) :
    bfs_total_distance g v = 0 := by
  unfold bfs_total_distance
  simp [bfsLoop, h]

/-- C3.  Every entry of `analyze_centrality` scores its node by
`1 / bfs_total_distance` when that total is positive and by 0 otherwise;
hence every score is nonnegative, a sampled node with no outgoing edges
scores exactly 0, and the start node of a single-node graph scores exactly
0 (never infinity). -/
theorem analyze_centrality_score_def (g : Graph) (k : ℕ) :
    (∀ p ∈ analyze_centrality g k,
      (p.2 = if 0 < bfs_total_distance g p.1 then 1 / bfs_total_distance g p.1 else 0) ∧
      0 ≤ p.2 ∧ (g.outEdges p.1 = [] → p.2 = 0)) ∧
    analyze_centrality (⟨[(0, 0)], []⟩ : Graph) 1 = [(0, 0)] := by
  constructor
  · intro p hp
    rw [analyze_centrality_eq, List.mem_mergeSort] at hp
    obtain ⟨v, hv, rfl⟩ := List.mem_map.mp hp
    refine ⟨rfl, ?_, ?_⟩
    · by_cases h : 0 < bfs_total_distance g v
      · simp only [h, if_pos]
        positivity
      · simp only [h, if_neg, not_false_eq_true, le_refl]
    · intro hiso
      have h0 := bfs_total_distance_isolated g v hiso
      simp [h0]
  · norm_num [analyze_centrality_eq, scoreList, bfs_total_distance, bfsLoop,
      Graph.outEdges, List.range_succ]

/-- C3 witness: the single entry of the single-node graph's result
satisfies the score characterization. -/
theorem analyze_centrality_score_def_witness :
    (0, (0 : ℚ)).2 =
      (if 0 < bfs_total_distance (⟨[(0, 0)], []⟩ : Graph) (0, (0 : ℚ)).1 then
        1 / bfs_total_distance (⟨[(0, 0)], []⟩ : Graph) (0, (0 : ℚ)).1 else 0) ∧
    (0 : ℚ) ≤ (0, (0 : ℚ)).2 ∧
    ((⟨[(0, 0)], []⟩ : Graph).outEdges (0, (0 : ℚ)).1 = [] → (0, (0 : ℚ)).2 = 0) :=
  ((analyze_centrality_score_def (⟨[(0, 0)], []⟩ : Graph) 1).1 (0, 0)
    (by simp [analyze_centrality_eq, scoreList, bfs_total_distance, bfsLoop,
      Graph.outEdges, List.range_succ]))

/-- C8.  Every produced score is either 0 or the positive reciprocal of a
positive accumulated distance (given that the embedding's rational
arithmetic is total, the floating-point reading is that no NaN can arise
from the core's own arithmetic on finite inputs), and the sort comparator
is defined — never in its error branch — on every pair of produced
entries. -/
theorem analyze_centrality_no_nan (g : Graph) (k : ℕ) :
    (∀ p ∈ analyze_centrality g k,
      p.2 = 0 ∨ (0 < bfs_total_distance g p.1 ∧ 0 < p.2 ∧
        p.2 = 1 / bfs_total_distance g p.1)) ∧
    (∀ p ∈ analyze_centrality g k, ∀ q ∈ analyze_centrality g k,
      scoreLe p q = true ∨ scoreLe q p = true) := by
  constructor
  · intro p hp
    rw [analyze_centrality_eq, List.mem_mergeSort] at hp
    obtain ⟨v, hv, rfl⟩ := List.mem_map.mp hp
    by_cases h : 0 < bfs_total_distance g v
    · refine Or.inr ⟨h, ?_, by simp [h]⟩
      simp only [h, if_pos]
      positivity
    · exact Or.inl (by simp [h])
  · intro p _ q _
    rcases le_total q.2 p.2 with h | h
    · exact Or.inl (by simpa [scoreLe] using h)
    · exact Or.inr (by simpa [scoreLe] using h)

/-- C8 witness: at the single-node graph, the single produced entry
satisfies the zero-or-positive-reciprocal disjunction. -/
theorem analyze_centrality_no_nan_witness :
    (0, (0 : ℚ)).2 = 0 ∨
      (0 < bfs_total_distance (⟨[(0, 0)], []⟩ : Graph) (0, (0 : ℚ)).1 ∧
        0 < (0, (0 : ℚ)).2 ∧
        (0, (0 : ℚ)).2 = 1 / bfs_total_distance (⟨[(0, 0)], []⟩ : Graph) (0, (0 : ℚ)).1) :=
  ((analyze_centrality_no_nan (⟨[(0, 0)], []⟩ : Graph) 1).1 (0, 0)
    (by simp [analyze_centrality_eq, scoreList, bfs_total_distance, bfsLoop,
      Graph.outEdges, List.range_succ]))

/-- In a list that is pairwise-related by an asymmetric relation, two
members related by it occur in that order as a two-element sublist. -/
lemma sublist_pair_of_pairwise {α : Type} {r : α → α → Prop}
    (hasymm : ∀ x y, r x y → ¬ r y x) :
    ∀ (l : List α), l.Pairwise r → ∀ a b, a ∈ l → b ∈ l → r a b → [a, b].Sublist l := by
  intro l
  induction l with
  | nil => intro _ a b ha; exact absurd ha (List.not_mem_nil a)
  | cons x t ih =>
    intro hl a b ha hb hr
    obtain ⟨hx, ht⟩ := List.pairwise_cons.mp hl
    rcases List.mem_cons.mp ha with rfl | hat
    · rcases List.mem_cons.mp hb with rfl | hbt
      · exact absurd hr (hasymm _ _ hr)
      · exact (List.singleton_sublist.mpr hbt).cons₂ _
    · rcases List.mem_cons.mp hb with rfl | hbt
      · exact absurd hr (hasymm _ _ (hx _ hat))
      · exact (ih ht _ _ hat hbt hr).cons x

/-- In a duplicate-free list, two elements cannot occur as a two-element
sublist in both orders unless they are equal. -/
lemma eq_of_pair_sublists_of_nodup {α : Type} :
    ∀ (l : List α), l.Nodup → ∀ a b, [a, b].Sublist l → [b, a].Sublist l → a = b := by
  intro l
  induction l with
  | nil =>
    intro _ a b hab hba
    exact absurd (hab.subset (List.mem_cons_self a [b])) (List.not_mem_nil a)
  | cons x t ih =>
    intro hnd a b hab hba
    obtain ⟨hx, ht⟩ := List.nodup_cons.mp hnd
    cases hab with
    | cons _ hab' =>
      cases hba with
      | cons _ hba' => exact ih ht a b hab' hba'
      | cons₂ _ hba' =>
        exact absurd (hab'.subset (List.mem_cons_of_mem _ (List.mem_cons_self _ _)))
          (by rintro h; exact hx h)
    | cons₂ _ hab' =>
      cases hba with
      | cons _ hba' =>
        exact absurd (hba'.subset (List.mem_cons_of_mem _ (List.mem_cons_self _ _)))
          (by rintro h; exact hx h)
      | cons₂ _ hba' =>
        exact absurd (List.singleton_sublist.mp hba' :)
          (by rintro h; exact hx h)

/-- The unsorted score list carries strictly increasing node indices. -/
lemma scoreList_pairwise_fst_lt (g : Graph) (k : ℕ) :
    (scoreList g k).Pairwise (fun a b => a.1 < b.1) := by
  unfold scoreList
  rw [List.pairwise_map]
  exact ((List.pairwise_lt_range g.nodes.length).sublist
    (List.take_sublist k (List.range g.nodes.length)))

/-- C10.  Ties are broken by ascending node index: whenever two entries of
`analyze_centrality`'s result carry equal scores, the one with the smaller
node index comes first — the loop pushes pairs in ascending index order and
the sort is stable, so the output is fully deterministic even on ties. -/
theorem analyze_centrality_stable_ties (g : Graph) (k : ℕ) :
    (analyze_centrality g k).Pairwise (fun a b => a.2 = b.2 → a.1 < b.1) := by
  have hfst := scoreList_pairwise_fst_lt g k
  have hnodup : (scoreList g k).Nodup :=
    hfst.imp (fun h heq => absurd (heq ▸ h) (lt_irrefl _))
  have hnodup' : ((scoreList g k).mergeSort scoreLe).Nodup :=
    (List.mergeSort_perm (scoreList g k) scoreLe).nodup_iff.mpr hnodup
  rw [analyze_centrality_eq, List.pairwise_iff_forall_sublist]
  intro a b hab heq
  have ha : a ∈ scoreList g k :=
    List.mem_mergeSort.mp (hab.subset (List.mem_cons_self a [b]))
  have hb : b ∈ scoreList g k :=
    List.mem_mergeSort.mp (hab.subset (List.mem_cons_of_mem a (List.mem_cons_self b [])))
  rcases lt_trichotomy a.1 b.1 with h | h | h
  · exact h
  · have hab' : a = b := Prod.ext h heq
    subst hab'
    exact absurd (List.pairwise_iff_forall_sublist.mp hnodup' hab rfl) (by simp)
  · have hba : [b, a].Sublist (scoreList g k) :=
      sublist_pair_of_pairwise (fun x y hxy => by omega) (scoreList g k) hfst b a hb ha h
    have hle : scoreLe b a = true := by
      simp [scoreLe, heq.le]
    have hba' : [b, a].Sublist ((scoreList g k).mergeSort scoreLe) :=
      List.pair_sublist_mergeSort scoreLe_trans scoreLe_total hle hba
    have : a = b := eq_of_pair_sublists_of_nodup _ hnodup' a b hab hba'
    exact absurd (this ▸ h) (lt_irrefl _)

/-- Rust's `f64::to_radians`: multiplication by π / 180. -/
noncomputable def toRadians (x : ℝ) : ℝ := x * (Real.pi / 180)

/-- Rust's `f64::atan2(self = y, other = x)`: the angle of the point (x, y),
modelled on the reals by the usual case split. -/
noncomputable def atan2 (y x : ℝ) : ℝ :=
  if 0 < x then Real.arctan (y / x)
  else if x < 0 then
    (if 0 ≤ y then Real.arctan (y / x) + Real.pi else Real.arctan (y / x) - Real.pi)
  else
    (if 0 < y then Real.pi / 2 else if y < 0 then -(Real.pi / 2) else 0)

/-- `haversine_distance` of `src/src/graph_analysis.rs`, modelled over ℝ:
with R = 6371 km,
`a = sin²(Δlat/2) + cos(lat1)·cos(lat2)·sin²(Δlon/2)` and
`distance = R · 2 · atan2(√a, √(1−a))`, all angles in radians. -/
noncomputable def haversine_distance (coord1 coord2 : ℝ × ℝ) : ℝ :=
  let lat1 := coord1.1
  let lat2 := coord2.1
  let r : ℝ := 6371
  let dlat := toRadians (lat2 - lat1)
  let dlon := toRadians (coord2.2 - coord1.2)
  let a := Real.sin (dlat / 2) ^ 2 +
    Real.cos (toRadians lat1) * Real.cos (toRadians lat2) * Real.sin (dlon / 2) ^ 2
  let c := 2 * atan2 (Real.sqrt a) (Real.sqrt (1 - a))
  r * c

/-- C7.  The haversine distance is symmetric in its two coordinates (in the
real-number model, exactly — a fortiori within any floating-point
tolerance), and the distance from any coordinate to itself is exactly 0. -/
theorem haversine_symm_and_zero :
    (∀ p q : ℝ × ℝ, haversine_distance p q = haversine_distance q p) ∧
    (∀ p : ℝ × ℝ, haversine_distance p p = 0) := by
  constructor
  · intro p q
    have hsin : ∀ x y : ℝ, Real.sin (toRadians (x - y) / 2) ^ 2
        = Real.sin (toRadians (y - x) / 2) ^ 2 := by
      intro x y
      have h : toRadians (x - y) / 2 = -(toRadians (y - x) / 2) := by
        unfold toRadians
        ring
      rw [h, Real.sin_neg]
      ring
    simp only [haversine_distance]
    rw [hsin q.1 p.1, hsin q.2 p.2,
      mul_comm (Real.cos (toRadians p.1)) (Real.cos (toRadians q.1))]
  · intro p
    simp only [haversine_distance, sub_self]
    have h0 : toRadians 0 = 0 := by
      unfold toRadians
      ring
    rw [h0]
    norm_num [atan2, Real.arctan_zero]

end GA
